import Mathlib

/-!
# Model of `cdutil/vertical.py`

A shallow embedding of the vertical-interpolation kernel of the `cdutil`
repository (`linearInterpolation` and `logLinearInterpolation` in
`src/cdutil/vertical.py`), together with theorems checking the
natural-language specification against it.

Modelling conventions:

* A masked (`MV2` / `numpy.ma`) array of shape `(nsigma, R)` (vertical axis
  first, the remaining "column" dimensions flattened to `R`) is a
  `List (List a)`: the outer list runs over the vertical levels, each inner
  list over the columns.  A cell that may be masked is an `Option a`
  (`none` = masked / missing).
* Machine floats are idealised as the elements of a linear ordered field
  (instantiated at `Rat` for executable checks and at `Real` where the
  logarithm is needed); the `float32` cast of the source is the identity in
  this idealisation.
* An elementwise operation on two arrays whose shapes disagree raises in
  `numpy`; here the strict zips `zipSame` / `zip3Same` return `none`
  (`none` at the level of whole results = raised shape error).
* `numpy.ma` arithmetic masks a cell whenever an operand cell is masked,
  whenever a divisor cell is `0`, and (for `MV2.log`) whenever the argument
  cell is `≤ 0`; the cell functions `maLinCell` / `maLogCell` reproduce this.
* The two branches of the source on `Ieq.mask is nomask` compute, cell by
  cell, the same result (take `Ieq` where it is valid, else the interpolated
  value); `overrideCell` is that common per-cell function.
* The process-wide cdms2 auto-bounds flag and the exception behaviour of
  `cdms2.createAxis` (source lines 145-148 and 262-265) are modelled by
  explicit state passing in `buildLevelAxis`.

Besides the faithful array-level model, a per-column model (`colScan`,
`linColLevel`, `logColLevel`) is defined; `linLevelSlice_eq_columns` and
`logLevelSlice_eq_columns` prove that for well-shaped inputs the array-level
kernel is exactly the per-column kernel mapped over the columns, so the
per-column definitions are a faithful description of what the program does
to each column.
-/

set_option autoImplicit false

namespace CdutilVertical

variable {α : Type*} {β : Type*} {γ : Type*} {δ : Type*} {ε : Type*}

/-- The sole element of a one-element array (`numpy` size-1 broadcasting
applies exactly to these), `none` otherwise. -/
def getSolo : List α → Option α
  | [a] => some a
  | _ => none

/-- Total 3-ary zip (truncating); the value of `zip3Same` on equal lengths. -/
def zipWith3 (f : α → β → γ → δ) : List α → List β → List γ → List δ
  | a :: as, b :: bs, c :: cs => f a b c :: zipWith3 f as bs cs
  | _, _, _ => []

/-- Elementwise combination of two arrays with `numpy` 1-d broadcasting:
equal lengths combine cell by cell, a length-1 operand is broadcast across
the other, and any other length disagreement is a raised shape error
(`none`). -/
def zipSame (f : α → β → γ) (as : List α) (bs : List β) : Option (List γ) :=
  if as.length = bs.length then some (List.zipWith f as bs)
  else
    match getSolo as, getSolo bs with
    | some a, _ => some (bs.map (fun b => f a b))
    | _, some b => some (as.map (fun a => f a b))
    | none, none => none

/-- Elementwise combination of three arrays (used for `MV2.where`) with
`numpy` 1-d broadcasting: equal lengths combine cell by cell, length-1
operands are broadcast to the common length of the others, and any other
length disagreement is a raised shape error (`none`). -/
def zip3Same (f : α → β → γ → δ) (as : List α) (bs : List β) (cs : List γ) :
    Option (List δ) :=
  if as.length = bs.length ∧ as.length = cs.length then
    some (zipWith3 f as bs cs)
  else
    match getSolo as, getSolo bs, getSolo cs with
    | some a, some b, _ => some (cs.map (fun c => f a b c))
    | some a, _, some c => some (bs.map (fun b => f a b c))
    | _, some b, some c => some (as.map (fun a => f a b c))
    | some a, _, _ =>
      if bs.length = cs.length then
        some (List.zipWith (fun b c => f a b c) bs cs)
      else none
    | _, some b, _ =>
      if as.length = cs.length then
        some (List.zipWith (fun a c => f a b c) as cs)
      else none
    | _, _, some c =>
      if as.length = bs.length then
        some (List.zipWith (fun a b => f a b c) as bs)
      else none
    | none, none, none => none

/-- Total 4-ary zip (truncating); used for the interpolation formula, whose
operand arrays all have the column shape by construction. -/
def map4 (f : α → β → γ → δ → ε) : List α → List β → List γ → List δ → List ε
  | a :: as, b :: bs, c :: cs, d :: ds => f a b c d :: map4 f as bs cs ds
  | _, _, _, _ => []

/-- The state of the bracket-search scan of `linearInterpolation` /
`logLinearInterpolation` for one target level: the four bracket arrays and
the exact-match array `Ieq`, all over the columns.  (`Pabv`, `Pbel`, `Peq`
of `logLinearInterpolation` are the same state under other names.) -/
structure BState (α : Type*) where
  Iabv : List α
  Ibel : List α
  Aabv : List α
  Abel : List α
  Ieq : List (Option α)

/-- Initial scan state (source lines 106-111 / 221-226): the four bracket
arrays hold the sentinel `-1` (ones multiplied by `-1`), and
`Ieq = masked_equal(Iabv, -1)` is masked everywhere. -/
def initBState [LinearOrderedField α] (m : Nat) : BState α :=
  ⟨List.replicate m (-1), List.replicate m (-1), List.replicate m (-1),
   List.replicate m (-1), List.replicate m none⟩

/-- One iteration of the scan loop (source lines 112-129 / 227-244) at source
index `i`: `Ii = Idx[i]`, `Iim = Idx[i-1]`, `Ai = A[i]`, `Aim = A[i-1]`.
`a = logical_and(greater_equal(Idx[i], lev), less_equal(Idx[i-1], lev))`,
then the five `MV2.where` updates, in source order. -/
def bstep [LinearOrderedField α] (lev : α) (Ii Iim Ai Aim : List α) (s : BState α) :
    Option (BState α) :=
  (zipSame (fun x y => decide (lev ≤ x) && decide (y ≤ lev)) Ii Iim).bind (fun a =>
  (zip3Same (fun c x y => if c then x else y) a Ii s.Iabv).bind (fun iabv =>
  (zip3Same (fun c x y => if c then x else y) a Ai s.Aabv).bind (fun aabv =>
  (zip3Same (fun c x y => if c then x else y) a Iim s.Ibel).bind (fun ibel =>
  (zip3Same (fun c x y => if c then x else y) a Aim s.Abel).bind (fun abel =>
  (zip3Same (fun c x y => if c then some x else y)
      (Ii.map (fun x => decide (x = lev))) Ai s.Ieq).map (fun ieq =>
  ⟨iabv, ibel, aabv, abel, ieq⟩))))))

/-- The scan loop `for i in range(1, nsigma)`, carrying the previous rows
`Idx[i-1]` / `A[i-1]` alongside the remaining rows.  Running out of `A` rows
while `Idx` rows remain is the python `IndexError` (`none`). -/
def bracketScanAux [LinearOrderedField α] (lev : α) :
    BState α → List α → List (List α) → List α → List (List α) → Option (BState α)
  | s, _, [], _, _ => some s
  | s, Iim, Ii :: Irest, Aim, Ai :: Arest =>
    match bstep lev Ii Iim Ai Aim s with
    | some s2 => bracketScanAux lev s2 Ii Irest Ai Arest
    | none => none
  | _, _, _ :: _, _, [] => none

/-- The whole bracket search for one target level: the initial state is built
from the shape of `Idx[0]` (source line 100), then the scan runs from source
index 1.  An empty `Idx` is the python `IndexError` on `Idx[0]`. -/
def bracketSearch [LinearOrderedField α] (lev : α) (Idx A : List (List α)) :
    Option (BState α) :=
  match Idx with
  | [] => none
  | I0 :: Irest => bracketScanAux lev (initBState I0.length) I0 Irest (A.headD []) A.tail

/-- One output cell of the linear interpolation (source lines 131-137), with
`numpy.ma` semantics: `val = masked_where(Ibel == -1, lev)`, and the
arithmetic `(val - Ibel) / (Iabv - Ibel) * (Aabv - Abel) + Abel` masks the
cell when `val` is masked or the divisor is zero. -/
def maLinCell [LinearOrderedField α] (lev b iab aab abel : α) : Option α :=
  if b = -1 then none
  else if iab - b = 0 then none
  else some ((lev - b) / (iab - b) * (aab - abel) + abel)

/-- One output cell of the log-linear interpolation (source lines 246-254):
`log(val / Pbel) / log(Pabv / Pbel) * (Aabv - Abel) + Abel`, masking the
cell when `val` is masked, a divisor is zero, or a logarithm argument is
not positive. -/
def maLogCell [LinearOrderedField α] (log : α → α) (lev b iab aab abel : α) : Option α :=
  if b = -1 then none
  else if b = 0 then none
  else if lev / b ≤ 0 then none
  else if iab / b ≤ 0 then none
  else if log (iab / b) = 0 then none
  else some (log (lev / b) / log (iab / b) * (aab - abel) + abel)

/-- The exact-match override (source lines 138-141 / 255-258).  Both source
branches (`Ieq.mask is nomask`, i.e. `Ieq` valid in every cell, and the
general `MV2.where(1 - Ieq.mask, Ieq, tl)`) compute this same per-cell
result: the `Ieq` value where valid, otherwise the interpolated cell. -/
def overrideCell (e t : Option α) : Option α :=
  match e with
  | some v => some v
  | none => t

/-- The level slice written into `t[ilev]` by `linearInterpolation`. -/
def linFinalize [LinearOrderedField α] (lev : α) (s : BState α) : List (Option α) :=
  List.zipWith overrideCell s.Ieq (map4 (maLinCell lev) s.Ibel s.Iabv s.Aabv s.Abel)

/-- The level slice written into `t[ilev]` by `logLinearInterpolation`. -/
def logFinalize [LinearOrderedField α] (log : α → α) (lev : α) (s : BState α) :
    List (Option α) :=
  List.zipWith overrideCell s.Ieq (map4 (maLogCell log lev) s.Ibel s.Iabv s.Aabv s.Abel)

/-- Bracket search plus linear interpolation for one target level. -/
def linLevelSlice [LinearOrderedField α] (lev : α) (Idx A : List (List α)) :
    Option (List (Option α)) :=
  (bracketSearch lev Idx A).map (linFinalize lev)

/-- Bracket search plus log-linear interpolation for one target level. -/
def logLevelSlice [LinearOrderedField α] (log : α → α) (lev : α) (P A : List (List α)) :
    Option (List (Option α)) :=
  (bracketSearch lev P A).map (logFinalize log lev)

/-- The loop `for ilev in range(nlev)` assembling the output field one level
slice at a time; an error while computing a slice aborts the whole call. -/
def levelLoop (f : α → Option (List (Option β))) : List α → Option (List (List (Option β)))
  | [] => some []
  | l :: ls =>
    match f l, levelLoop f ls with
    | some s, some rest => some (s :: rest)
    | _, _ => none

/-- The `targetLevels` argument: either a scalar (no `len`) or a sequence.
Source lines 88-92 / 203-207 normalize a scalar `x` to `[x]` via the
`try/except` around `len(levels)`. -/
def normalizeLevels : α ⊕ List α → List α
  | Sum.inl x => [x]
  | Sum.inr ls => ls

/-- The computational core of `linearInterpolation(A, Idx, levels)`:
normalize the levels, then produce one interpolated slice per target level.
(Axis/metadata assembly and the `float32` cast are outside this model;
`buildLevelAxis` below models the auto-bounds section.) -/
def linearInterpolation [LinearOrderedField α] (A Idx : List (List α))
    (levels : α ⊕ List α) : Option (List (List (Option α))) :=
  levelLoop (fun lev => linLevelSlice lev Idx A) (normalizeLevels levels)

/-- The computational core of `logLinearInterpolation(A, P, levels)`, with
`log` the mathematical logarithm used by `MV2.log`. -/
def logLinearInterpolation [LinearOrderedField α] (log : α → α) (A P : List (List α))
    (levels : α ⊕ List α) : Option (List (List (Option α))) :=
  levelLoop (fun lev => logLevelSlice log lev P A) (normalizeLevels levels)

/-! ## Per-column model

The scan touches each column independently; the per-column model makes that
explicit.  `pairs coord` lists the consecutive coordinate pairs
`(coord[i-1], coord[i])` for `i = 1 .. nsigma-1`, and the scan is a left
fold of `colStep` over the paired coordinate/field quadruples. -/

/-- The per-column bracket-search state. -/
structure ColBracket (α : Type*) where
  Iabv : α
  Ibel : α
  Aabv : α
  Abel : α
  Ieq : Option α
deriving DecidableEq

/-- Per-column initial state: sentinel `-1` brackets, masked `Ieq`. -/
def colInit [LinearOrderedField α] : ColBracket α := ⟨-1, -1, -1, -1, none⟩

/-- One scan step on one column.  The quadruple `q` is
`((Idx[i-1][j], Idx[i][j]), (A[i-1][j], A[i][j]))`; the bracket is rewritten
whenever `Idx[i-1][j] <= lev <= Idx[i][j]`, and `Ieq` whenever
`Idx[i][j] == lev`. -/
def colStep [LinearOrderedField α] (lev : α) (q : (α × α) × (α × α)) (c : ColBracket α) :
    ColBracket α :=
  { Iabv := if q.1.1 ≤ lev ∧ lev ≤ q.1.2 then q.1.2 else c.Iabv
    Ibel := if q.1.1 ≤ lev ∧ lev ≤ q.1.2 then q.1.1 else c.Ibel
    Aabv := if q.1.1 ≤ lev ∧ lev ≤ q.1.2 then q.2.2 else c.Aabv
    Abel := if q.1.1 ≤ lev ∧ lev ≤ q.1.2 then q.2.1 else c.Abel
    Ieq := if q.1.2 = lev then some q.2.2 else c.Ieq }

/-- Left fold of `colStep` over a list of quadruples. -/
def colSteps [LinearOrderedField α] (lev : α) (c : ColBracket α)
    (L : List ((α × α) × (α × α))) : ColBracket α :=
  List.foldl (fun c q => colStep lev q c) c L

/-- Consecutive pairs of a list: `pairs [x0, x1, x2] = [(x0, x1), (x1, x2)]`. -/
def pairs : List α → List (α × α)
  | x0 :: x1 :: xs => (x0, x1) :: pairs (x1 :: xs)
  | _ => []

/-- The whole per-column bracket search for one target level. -/
def colScan [LinearOrderedField α] (lev : α) (coord field : List α) : ColBracket α :=
  colSteps lev colInit ((pairs coord).zip (pairs field))

/-- The per-column output cell of the linear interpolation. -/
def linColLevel [LinearOrderedField α] (lev : α) (coord field : List α) : Option α :=
  overrideCell (colScan lev coord field).Ieq
    (maLinCell lev (colScan lev coord field).Ibel (colScan lev coord field).Iabv
      (colScan lev coord field).Aabv (colScan lev coord field).Abel)

/-- The per-column output cell of the log-linear interpolation. -/
def logColLevel [LinearOrderedField α] (log : α → α) (lev : α) (coord field : List α) :
    Option α :=
  overrideCell (colScan lev coord field).Ieq
    (maLogCell log lev (colScan lev coord field).Ibel (colScan lev coord field).Iabv
      (colScan lev coord field).Aabv (colScan lev coord field).Abel)

/-- Column `j` of an array (the `j`-th cell of every row). -/
def column [LinearOrderedField α] (j : Nat) (M : List (List α)) : List α :=
  M.map (fun r => r.getD j 0)

/-- The per-column view of an array-level scan state. -/
def colAt [LinearOrderedField α] (s : BState α) (j : Nat) : ColBracket α :=
  ⟨s.Iabv.getD j 0, s.Ibel.getD j 0, s.Aabv.getD j 0, s.Abel.getD j 0, s.Ieq.getD j none⟩

/-- All five state arrays have the column shape `m`. -/
def sLen (s : BState α) (m : Nat) : Prop :=
  s.Iabv.length = m ∧ s.Ibel.length = m ∧ s.Aabv.length = m ∧ s.Abel.length = m ∧
    s.Ieq.length = m

/-! ## Auto-bounds section

Source lines 145-148 (and identically 262-265):

    autobnds = cdms2.getAutoBounds()
    cdms2.setAutoBounds('off')
    lvl = cdms2.createAxis(MV2.array(levels).filled())
    cdms2.setAutoBounds(autobnds)

The process-wide flag is a `Bool` (`true` = bounds on); `createAxis` is an
arbitrary fallible operation receiving the current flag value.  The result
is the outcome of `createAxis` paired with the final flag value; an
exception in `createAxis` propagates before the restoring `setAutoBounds`
line runs. -/
def buildLevelAxis (createAxis : Bool → Except Unit Unit) (b0 : Bool) :
    Except Unit Unit × Bool :=
  let autobnds := b0
  let b1 := false
  match createAxis b1 with
  | Except.error e => (Except.error e, b1)
  | Except.ok lvl => (Except.ok lvl, autobnds)

/-! ## Lemmas on the strict zips -/

theorem zipSame_of_length_eq (f : α → β → γ) (as : List α) (bs : List β)
    (h : as.length = bs.length) : zipSame f as bs = some (List.zipWith f as bs) := by
  rw [zipSame, if_pos h]

theorem zip3Same_of_length_eq (f : α → β → γ → δ) (as : List α) (bs : List β)
    (cs : List γ) (h1 : as.length = bs.length) (h2 : as.length = cs.length) :
    zip3Same f as bs cs = some (zipWith3 f as bs cs) := by
  rw [zip3Same, if_pos ⟨h1, h2⟩]

theorem length_zipWith3 (f : α → β → γ → δ) :
    ∀ (as : List α) (bs : List β) (cs : List γ),
      (zipWith3 f as bs cs).length = min as.length (min bs.length cs.length)
  | [], _, _ => by cases ‹List β› <;> cases ‹List γ› <;> simp [zipWith3]
  | _ :: _, [], _ => by cases ‹List γ› <;> simp [zipWith3]
  | _ :: _, _ :: _, [] => by simp [zipWith3]
  | a :: as, b :: bs, c :: cs => by
    simp [zipWith3, length_zipWith3 f as bs cs]
    omega

theorem getD_zipWith3 (f : α → β → γ → δ) :
    ∀ (as : List α) (bs : List β) (cs : List γ) (j : Nat)
      (d1 : α) (d2 : β) (d3 : γ) (d4 : δ),
      j < as.length → j < bs.length → j < cs.length →
      (zipWith3 f as bs cs).getD j d4 = f (as.getD j d1) (bs.getD j d2) (cs.getD j d3)
  | a :: as, b :: bs, c :: cs, 0, _, _, _, _, _, _, _ => rfl
  | a :: as, b :: bs, c :: cs, j + 1, d1, d2, d3, d4, h1, h2, h3 => by
    have e := getD_zipWith3 f as bs cs j d1 d2 d3 d4 (by simpa using h1)
      (by simpa using h2) (by simpa using h3)
    simpa [zipWith3] using e

theorem length_map4 (f : α → β → γ → δ → ε) :
    ∀ (as : List α) (bs : List β) (cs : List γ) (ds : List δ),
      (map4 f as bs cs ds).length =
        min as.length (min bs.length (min cs.length ds.length))
  | [], _, _, _ => by cases ‹List β› <;> cases ‹List γ› <;> cases ‹List δ› <;> simp [map4]
  | _ :: _, [], _, _ => by cases ‹List γ› <;> cases ‹List δ› <;> simp [map4]
  | _ :: _, _ :: _, [], _ => by cases ‹List δ› <;> simp [map4]
  | _ :: _, _ :: _, _ :: _, [] => by simp [map4]
  | a :: as, b :: bs, c :: cs, d :: ds => by
    simp [map4, length_map4 f as bs cs ds]
    omega

theorem getD_map4 (f : α → β → γ → δ → ε) :
    ∀ (as : List α) (bs : List β) (cs : List γ) (ds : List δ) (j : Nat)
      (d1 : α) (d2 : β) (d3 : γ) (d4 : δ) (d5 : ε),
      j < as.length → j < bs.length → j < cs.length → j < ds.length →
      (map4 f as bs cs ds).getD j d5 =
        f (as.getD j d1) (bs.getD j d2) (cs.getD j d3) (ds.getD j d4)
  | a :: as, b :: bs, c :: cs, d :: ds, 0, _, _, _, _, _, _, _, _, _ => rfl
  | a :: as, b :: bs, c :: cs, d :: ds, j + 1, d1, d2, d3, d4, d5, h1, h2, h3, h4 => by
    have e := getD_map4 f as bs cs ds j d1 d2 d3 d4 d5 (by simpa using h1)
      (by simpa using h2) (by simpa using h3) (by simpa using h4)
    simpa [map4] using e

theorem getD_zipWith (f : α → β → γ) :
    ∀ (as : List α) (bs : List β) (j : Nat) (d1 : α) (d2 : β) (d3 : γ),
      j < as.length → j < bs.length →
      (List.zipWith f as bs).getD j d3 = f (as.getD j d1) (bs.getD j d2)
  | a :: as, b :: bs, 0, _, _, _, _, _ => rfl
  | a :: as, b :: bs, j + 1, d1, d2, d3, h1, h2 => by
    have e := getD_zipWith f as bs j d1 d2 d3 (by simpa using h1) (by simpa using h2)
    simpa using e

theorem getD_map_lt (f : α → β) :
    ∀ (as : List α) (j : Nat) (d1 : α) (d2 : β), j < as.length →
      (as.map f).getD j d2 = f (as.getD j d1)
  | a :: as, 0, _, _, _ => rfl
  | a :: as, j + 1, d1, d2, h => by
    have e := getD_map_lt f as j d1 d2 (by simpa using h)
    simpa using e

/-! ## Array scan = per-column scan -/

theorem if_and_decide {σ : Type*} (p q : Prop) [Decidable p] [Decidable q] (u v : σ) :
    (if (decide p && decide q) = true then u else v) = if q ∧ p then u else v := by
  by_cases hp : p <;> by_cases hq : q <;> simp [hp, hq]

set_option maxHeartbeats 1000000 in
theorem bstep_cols [LinearOrderedField α] (lev : α) (Ii Iim Ai Aim : List α) (s : BState α)
    (m : Nat) (hIi : Ii.length = m) (hIim : Iim.length = m) (hAi : Ai.length = m)
    (hAim : Aim.length = m) (hs : sLen s m) :
    ∃ s2, bstep lev Ii Iim Ai Aim s = some s2 ∧ sLen s2 m ∧
      ∀ j, j < m →
        colAt s2 j =
          colStep lev ((Iim.getD j 0, Ii.getD j 0), (Aim.getD j 0, Ai.getD j 0))
            (colAt s j) := by
  obtain ⟨h1, h2, h3, h4, h5⟩ := hs
  have ha : (List.zipWith (fun x y : α => decide (lev ≤ x) && decide (y ≤ lev)) Ii Iim).length
      = m := by
    rw [List.length_zipWith]; omega
  have ea := zipSame_of_length_eq (fun x y : α => decide (lev ≤ x) && decide (y ≤ lev))
    Ii Iim (by omega)
  have e1 := zip3Same_of_length_eq (fun c x y => if c then x else y)
    (List.zipWith (fun x y : α => decide (lev ≤ x) && decide (y ≤ lev)) Ii Iim) Ii s.Iabv
    (by omega) (by omega)
  have e2 := zip3Same_of_length_eq (fun c x y => if c then x else y)
    (List.zipWith (fun x y : α => decide (lev ≤ x) && decide (y ≤ lev)) Ii Iim) Ai s.Aabv
    (by omega) (by omega)
  have e3 := zip3Same_of_length_eq (fun c x y => if c then x else y)
    (List.zipWith (fun x y : α => decide (lev ≤ x) && decide (y ≤ lev)) Ii Iim) Iim s.Ibel
    (by omega) (by omega)
  have e4 := zip3Same_of_length_eq (fun c x y => if c then x else y)
    (List.zipWith (fun x y : α => decide (lev ≤ x) && decide (y ≤ lev)) Ii Iim) Aim s.Abel
    (by omega) (by omega)
  have hmap : (Ii.map fun x => decide (x = lev)).length = m := by
    rw [List.length_map]; omega
  have e5 := zip3Same_of_length_eq (fun c x y => if c then some x else y)
    (Ii.map fun x => decide (x = lev)) Ai s.Ieq (by omega) (by omega)
  have hb : bstep lev Ii Iim Ai Aim s = some
      ⟨zipWith3 (fun c x y => if c = true then x else y)
          (List.zipWith (fun x y : α => decide (lev ≤ x) && decide (y ≤ lev)) Ii Iim)
          Ii s.Iabv,
        zipWith3 (fun c x y => if c = true then x else y)
          (List.zipWith (fun x y : α => decide (lev ≤ x) && decide (y ≤ lev)) Ii Iim)
          Iim s.Ibel,
        zipWith3 (fun c x y => if c = true then x else y)
          (List.zipWith (fun x y : α => decide (lev ≤ x) && decide (y ≤ lev)) Ii Iim)
          Ai s.Aabv,
        zipWith3 (fun c x y => if c = true then x else y)
          (List.zipWith (fun x y : α => decide (lev ≤ x) && decide (y ≤ lev)) Ii Iim)
          Aim s.Abel,
        zipWith3 (fun c x y => if c = true then some x else y)
          (List.map (fun x => decide (x = lev)) Ii) Ai s.Ieq⟩ := by
    rw [bstep, ea, Option.some_bind, e1, Option.some_bind, e2, Option.some_bind, e3,
      Option.some_bind, e4, Option.some_bind, e5, Option.map_some']
  refine ⟨_, hb, ?_, ?_⟩
  · unfold sLen
    refine ⟨?_, ?_, ?_, ?_, ?_⟩ <;>
      simp only [length_zipWith3, List.length_zipWith, List.length_map] <;> omega
  · intro j hj
    have gA := getD_zipWith (fun x y : α => decide (lev ≤ x) && decide (y ≤ lev)) Ii Iim
      j 0 0 false (by omega) (by omega)
    have c1 := getD_zipWith3 (fun c x y => if c then x else y)
      (List.zipWith (fun x y : α => decide (lev ≤ x) && decide (y ≤ lev)) Ii Iim) Ii s.Iabv
      j false 0 0 0 (by omega) (by omega) (by omega)
    have c2 := getD_zipWith3 (fun c x y => if c then x else y)
      (List.zipWith (fun x y : α => decide (lev ≤ x) && decide (y ≤ lev)) Ii Iim) Ai s.Aabv
      j false 0 0 0 (by omega) (by omega) (by omega)
    have c3 := getD_zipWith3 (fun c x y => if c then x else y)
      (List.zipWith (fun x y : α => decide (lev ≤ x) && decide (y ≤ lev)) Ii Iim) Iim s.Ibel
      j false 0 0 0 (by omega) (by omega) (by omega)
    have c4 := getD_zipWith3 (fun c x y => if c then x else y)
      (List.zipWith (fun x y : α => decide (lev ≤ x) && decide (y ≤ lev)) Ii Iim) Aim s.Abel
      j false 0 0 0 (by omega) (by omega) (by omega)
    have gmap := getD_map_lt (fun x : α => decide (x = lev)) Ii j 0 false (by omega)
    have c5 := getD_zipWith3 (fun c x y => if c then some x else y)
      (Ii.map fun x => decide (x = lev)) Ai s.Ieq j false 0 none none
      (by omega) (by omega) (by omega)
    simp only [colAt, colStep, ColBracket.mk.injEq]
    refine ⟨?_, ?_, ?_, ?_, ?_⟩
    · rw [c1, gA]; simp only [if_and_decide]
    · rw [c3, gA]; simp only [if_and_decide]
    · rw [c2, gA]; simp only [if_and_decide]
    · rw [c4, gA]; simp only [if_and_decide]
    · rw [c5, gmap]; simp only [decide_eq_true_eq]

theorem getD_replicate_lt {x d : γ} {mm j : Nat} (h : j < mm) :
    (List.replicate mm x).getD j d = x := by
  rw [List.getD_eq_getElem _ _ (by simpa using h), List.getElem_replicate]

theorem bracketScanAux_cols [LinearOrderedField α] (lev : α) (m : Nat) :
    ∀ (Irest Arest : List (List α)) (s : BState α) (Iprev Aprev : List α),
      (∀ r ∈ Irest, r.length = m) → (∀ r ∈ Arest, r.length = m) →
      Arest.length = Irest.length → Iprev.length = m → Aprev.length = m → sLen s m →
      ∃ s2, bracketScanAux lev s Iprev Irest Aprev Arest = some s2 ∧ sLen s2 m ∧
        ∀ j, j < m → colAt s2 j = colSteps lev (colAt s j)
          ((pairs (column j (Iprev :: Irest))).zip (pairs (column j (Aprev :: Arest))))
  | [], [], s, Iprev, Aprev, _, _, _, _, _, hs => by
    refine ⟨s, rfl, hs, ?_⟩
    intro j hj
    simp [column, pairs, colSteps]
  | [], _ :: _, _, _, _, _, _, hlen, _, _, _ => by simp at hlen
  | _ :: _, [], _, _, _, _, _, hlen, _, _, _ => by simp at hlen
  | Ii :: Irest, Ai :: Arest, s, Iprev, Aprev, hI, hA, hlen, hIp, hAp, hs => by
    have hIi : Ii.length = m := hI Ii (by simp)
    have hAi : Ai.length = m := hA Ai (by simp)
    obtain ⟨s2, hb, hs2, hcol⟩ := bstep_cols lev Ii Iprev Ai Aprev s m hIi hIp hAi hAp hs
    obtain ⟨s3, hrec, hs3, hcol3⟩ := bracketScanAux_cols lev m Irest Arest s2 Ii Ai
      (fun r hr => hI r (by simp [hr])) (fun r hr => hA r (by simp [hr]))
      (by simpa using hlen) hIi hAi hs2
    refine ⟨s3, ?_, hs3, ?_⟩
    · simp only [bracketScanAux, hb]
      exact hrec
    · intro j hj
      rw [hcol3 j hj, hcol j hj]
      simp [column, pairs, colSteps]

theorem bracketSearch_cols [LinearOrderedField α] (lev : α) (Idx A : List (List α)) (m : Nat)
    (hI : ∀ r ∈ Idx, r.length = m) (hA : ∀ r ∈ A, r.length = m)
    (hlen : A.length = Idx.length) (hne : Idx ≠ []) :
    ∃ s, bracketSearch lev Idx A = some s ∧ sLen s m ∧
      ∀ j, j < m → colAt s j = colScan lev (column j Idx) (column j A) := by
  match Idx, A with
  | [], _ => exact absurd rfl hne
  | I0 :: Irest, [] => simp at hlen
  | I0 :: Irest, A0 :: Arest =>
    have hI0 : I0.length = m := hI I0 (by simp)
    have hA0 : A0.length = m := hA A0 (by simp)
    have hinit : sLen (initBState (α := α) I0.length) m := by
      rw [hI0]
      refine ⟨?_, ?_, ?_, ?_, ?_⟩ <;> simp [initBState]
    obtain ⟨s, hrun, hs, hcol⟩ := bracketScanAux_cols lev m Irest Arest
      (initBState I0.length) I0 A0
      (fun r hr => hI r (by simp [hr])) (fun r hr => hA r (by simp [hr]))
      (by simpa using hlen) hI0 hA0 hinit
    refine ⟨s, ?_, hs, ?_⟩
    · simpa [bracketSearch] using hrun
    · intro j hj
      rw [hcol j hj, colScan]
      have hcb : colAt (initBState (α := α) I0.length) j = colInit := by
        simp only [colAt, initBState, colInit, ColBracket.mk.injEq]
        refine ⟨?_, ?_, ?_, ?_, ?_⟩ <;> exact getD_replicate_lt (by omega)
      rw [hcb]

theorem linFinalize_cols [LinearOrderedField α] (lev : α) (s : BState α) (m : Nat)
    (hs : sLen s m) :
    linFinalize lev s = (List.range m).map (fun j => overrideCell (s.Ieq.getD j none)
      (maLinCell lev (s.Ibel.getD j 0) (s.Iabv.getD j 0) (s.Aabv.getD j 0)
        (s.Abel.getD j 0))) := by
  obtain ⟨h1, h2, h3, h4, h5⟩ := hs
  have hm4 : (map4 (maLinCell lev) s.Ibel s.Iabv s.Aabv s.Abel).length = m := by
    rw [length_map4]; omega
  have hlen : (linFinalize lev s).length = m := by
    rw [linFinalize, List.length_zipWith]; omega
  apply List.ext_getElem (by simp [hlen])
  intro i hi1 hi2
  have him : i < m := by omega
  rw [List.getElem_map, List.getElem_range]
  rw [← List.getD_eq_getElem (linFinalize lev s) none hi1, linFinalize,
    getD_zipWith _ _ _ i none none none (by omega) (by omega),
    getD_map4 _ _ _ _ _ i 0 0 0 0 none (by omega) (by omega) (by omega) (by omega)]

theorem logFinalize_cols [LinearOrderedField α] (log : α → α) (lev : α) (s : BState α)
    (m : Nat) (hs : sLen s m) :
    logFinalize log lev s = (List.range m).map (fun j => overrideCell (s.Ieq.getD j none)
      (maLogCell log lev (s.Ibel.getD j 0) (s.Iabv.getD j 0) (s.Aabv.getD j 0)
        (s.Abel.getD j 0))) := by
  obtain ⟨h1, h2, h3, h4, h5⟩ := hs
  have hm4 : (map4 (maLogCell log lev) s.Ibel s.Iabv s.Aabv s.Abel).length = m := by
    rw [length_map4]; omega
  have hlen : (logFinalize log lev s).length = m := by
    rw [logFinalize, List.length_zipWith]; omega
  apply List.ext_getElem (by simp [hlen])
  intro i hi1 hi2
  have him : i < m := by omega
  rw [List.getElem_map, List.getElem_range]
  rw [← List.getD_eq_getElem (logFinalize log lev s) none hi1, logFinalize,
    getD_zipWith _ _ _ i none none none (by omega) (by omega),
    getD_map4 _ _ _ _ _ i 0 0 0 0 none (by omega) (by omega) (by omega) (by omega)]

/-- For well-shaped inputs, one linear level slice of the array-level kernel
is exactly the per-column kernel applied to every column. -/
theorem linLevelSlice_eq_columns [LinearOrderedField α] (lev : α) (Idx A : List (List α))
    (m : Nat) (hI : ∀ r ∈ Idx, r.length = m) (hA : ∀ r ∈ A, r.length = m)
    (hlen : A.length = Idx.length) (hne : Idx ≠ []) :
    linLevelSlice lev Idx A =
      some ((List.range m).map (fun j => linColLevel lev (column j Idx) (column j A))) := by
  obtain ⟨s, hsearch, hs, hcol⟩ := bracketSearch_cols lev Idx A m hI hA hlen hne
  rw [linLevelSlice, hsearch, Option.map_some', linFinalize_cols lev s m hs]
  refine congrArg some (List.map_congr_left ?_)
  intro j hj
  have hjm : j < m := List.mem_range.mp hj
  rw [linColLevel, ← hcol j hjm]
  simp [colAt]

/-- For well-shaped inputs, one log-linear level slice of the array-level
kernel is exactly the per-column kernel applied to every column. -/
theorem logLevelSlice_eq_columns [LinearOrderedField α] (log : α → α) (lev : α)
    (Idx A : List (List α)) (m : Nat) (hI : ∀ r ∈ Idx, r.length = m)
    (hA : ∀ r ∈ A, r.length = m) (hlen : A.length = Idx.length) (hne : Idx ≠ []) :
    logLevelSlice log lev Idx A =
      some ((List.range m).map
        (fun j => logColLevel log lev (column j Idx) (column j A))) := by
  obtain ⟨s, hsearch, hs, hcol⟩ := bracketSearch_cols lev Idx A m hI hA hlen hne
  rw [logLevelSlice, hsearch, Option.map_some', logFinalize_cols log lev s m hs]
  refine congrArg some (List.map_congr_left ?_)
  intro j hj
  have hjm : j < m := List.mem_range.mp hj
  rw [logColLevel, ← hcol j hjm]
  simp [colAt]

theorem levelLoop_eq_map {f : α → Option (List (Option β))} {g : α → List (Option β)} :
    ∀ (ls : List α), (∀ l ∈ ls, f l = some (g l)) → levelLoop f ls = some (ls.map g)
  | [], _ => rfl
  | l :: ls, h => by
    have h1 : f l = some (g l) := h l (by simp)
    have h2 : levelLoop f ls = some (ls.map g) :=
      levelLoop_eq_map ls (fun x hx => h x (by simp [hx]))
    simp [levelLoop, h1, h2]

/-! ## Characterisation of the per-column scan -/

theorem length_pairs : ∀ (l : List γ), (pairs l).length = l.length - 1
  | [] => rfl
  | [_] => rfl
  | x0 :: x1 :: xs => by
    have e := length_pairs (x1 :: xs)
    simp only [pairs, List.length_cons] at e ⊢
    omega

theorem getD_pairs (dp : γ × γ) (d : γ) :
    ∀ (l : List γ) (k : Nat), k + 1 < l.length →
      (pairs l).getD k dp = (l.getD k d, l.getD (k + 1) d)
  | [], k, h => by simp at h
  | [_], k, h => by simp at h
  | x0 :: x1 :: xs, 0, _ => by simp [pairs]
  | x0 :: x1 :: xs, k + 1, h => by
    have e := getD_pairs dp d (x1 :: xs) k (by simpa using h)
    simpa [pairs] using e

theorem getD_zip (da : γ) (db : δ) :
    ∀ (as : List γ) (bs : List δ) (k : Nat), k < as.length → k < bs.length →
      (as.zip bs).getD k (da, db) = (as.getD k da, bs.getD k db)
  | a :: as, b :: bs, 0, _, _ => rfl
  | a :: as, b :: bs, k + 1, h1, h2 => by
    have e := getD_zip da db as bs k (by simpa using h1) (by simpa using h2)
    simpa using e
  | [], _, k, h1, _ => by simp at h1
  | _ :: _, [], k, _, h2 => by simp at h2

/-- The `k`-th quadruple scanned for a column: the coordinate pair
`(coord[k], coord[k+1])` and the field pair `(field[k], field[k+1])`
(source indices `i-1 = k` and `i = k+1`). -/
theorem quads_getD (coord field : List γ) (z : γ) (k : Nat)
    (hk : k + 1 < coord.length) (hk2 : k + 1 < field.length) :
    ((pairs coord).zip (pairs field)).getD k ((z, z), (z, z)) =
      ((coord.getD k z, coord.getD (k + 1) z), (field.getD k z, field.getD (k + 1) z)) := by
  rw [getD_zip (z, z) (z, z) _ _ k (by rw [length_pairs]; omega) (by rw [length_pairs]; omega),
    getD_pairs _ z _ k hk, getD_pairs _ z _ k hk2]

theorem quads_mem (coord field : List γ) (z : γ) (q : (γ × γ) × (γ × γ))
    (hq : q ∈ (pairs coord).zip (pairs field)) :
    ∃ k, k + 1 < coord.length ∧ k + 1 < field.length ∧
      q = ((coord.getD k z, coord.getD (k + 1) z),
           (field.getD k z, field.getD (k + 1) z)) := by
  obtain ⟨k, hk, he⟩ := List.mem_iff_getElem.mp hq
  have hl : ((pairs coord).zip (pairs field)).length =
      min (coord.length - 1) (field.length - 1) := by
    rw [List.length_zip, length_pairs, length_pairs]
  refine ⟨k, by omega, by omega, ?_⟩
  rw [← he, ← List.getD_eq_getElem _ ((z, z), (z, z)) hk,
    quads_getD coord field z k (by omega) (by omega)]

theorem colSteps_bracket_keep [LinearOrderedField α] (lev : α) :
    ∀ (L : List ((α × α) × (α × α))) (c : ColBracket α),
      (∀ q ∈ L, ¬(q.1.1 ≤ lev ∧ lev ≤ q.1.2)) →
      (colSteps lev c L).Iabv = c.Iabv ∧ (colSteps lev c L).Ibel = c.Ibel ∧
        (colSteps lev c L).Aabv = c.Aabv ∧ (colSteps lev c L).Abel = c.Abel
  | [], _, _ => ⟨rfl, rfl, rfl, rfl⟩
  | q :: L, c, h => by
    have hq : ¬(q.1.1 ≤ lev ∧ lev ≤ q.1.2) := h q (by simp)
    have ih := colSteps_bracket_keep lev L (colStep lev q c)
      (fun x hx => h x (by simp [hx]))
    have hstep : (colStep lev q c).Iabv = c.Iabv ∧ (colStep lev q c).Ibel = c.Ibel ∧
        (colStep lev q c).Aabv = c.Aabv ∧ (colStep lev q c).Abel = c.Abel := by
      simp [colStep, hq]
    have hcons : colSteps lev c (q :: L) = colSteps lev (colStep lev q c) L := rfl
    rw [hcons]
    exact ⟨ih.1.trans hstep.1, ih.2.1.trans hstep.2.1, ih.2.2.1.trans hstep.2.2.1,
      ih.2.2.2.trans hstep.2.2.2⟩

theorem colSteps_Ieq_keep [LinearOrderedField α] (lev : α) :
    ∀ (L : List ((α × α) × (α × α))) (c : ColBracket α),
      (∀ q ∈ L, q.1.2 ≠ lev) → (colSteps lev c L).Ieq = c.Ieq
  | [], _, _ => rfl
  | q :: L, c, h => by
    have hq : q.1.2 ≠ lev := h q (by simp)
    have ih := colSteps_Ieq_keep lev L (colStep lev q c) (fun x hx => h x (by simp [hx]))
    have hstep : (colStep lev q c).Ieq = c.Ieq := by simp [colStep, hq]
    have hcons : colSteps lev c (q :: L) = colSteps lev (colStep lev q c) L := rfl
    rw [hcons, ih, hstep]

/-- If source index `i` (with `1 ≤ i < nsource`) satisfies the bracket
condition and no later index does, the scan records the bracket of index
`i`: last match wins. -/
theorem colScan_bracket_last [LinearOrderedField α] (lev : α) (coord field : List α)
    (hlen : coord.length = field.length) (i : Nat) (h1 : 1 ≤ i) (hi : i < coord.length)
    (hcond : coord.getD (i - 1) 0 ≤ lev ∧ lev ≤ coord.getD i 0)
    (hlast : ∀ k, i < k → k < coord.length →
      ¬(coord.getD (k - 1) 0 ≤ lev ∧ lev ≤ coord.getD k 0)) :
    (colScan lev coord field).Iabv = coord.getD i 0 ∧
      (colScan lev coord field).Ibel = coord.getD (i - 1) 0 ∧
      (colScan lev coord field).Aabv = field.getD i 0 ∧
      (colScan lev coord field).Abel = field.getD (i - 1) 0 := by
  have hQl : ((pairs coord).zip (pairs field)).length = coord.length - 1 := by
    rw [List.length_zip, length_pairs, length_pairs, hlen, min_self]
  have hkQ : i - 1 < ((pairs coord).zip (pairs field)).length := by omega
  have hsplit : (pairs coord).zip (pairs field) =
      ((pairs coord).zip (pairs field)).take (i - 1) ++
        ((pairs coord).zip (pairs field)).getD (i - 1) ((0, 0), (0, 0)) ::
          ((pairs coord).zip (pairs field)).drop i := by
    rw [List.getD_eq_getElem _ _ hkQ]
    have e1 := List.take_append_drop (i - 1) ((pairs coord).zip (pairs field))
    rw [List.drop_eq_getElem_cons hkQ] at e1
    have e2 : i - 1 + 1 = i := by omega
    rw [e2] at e1
    exact e1.symm
  have hq : ((pairs coord).zip (pairs field)).getD (i - 1) ((0, 0), (0, 0)) =
      ((coord.getD (i - 1) 0, coord.getD i 0), (field.getD (i - 1) 0, field.getD i 0)) := by
    have e := quads_getD coord field 0 (i - 1) (by omega) (by omega)
    have e2 : i - 1 + 1 = i := by omega
    rw [e2] at e
    exact e
  have hdrop : ∀ q ∈ ((pairs coord).zip (pairs field)).drop i,
      ¬(q.1.1 ≤ lev ∧ lev ≤ q.1.2) := by
    intro q hqmem
    obtain ⟨r, hr, he⟩ := List.mem_iff_getElem.mp hqmem
    rw [List.getElem_drop] at he
    have hiQ : i + r < ((pairs coord).zip (pairs field)).length := by
      simp only [List.length_drop] at hr
      omega
    rw [← List.getD_eq_getElem _ ((0, 0), (0, 0)) hiQ,
      quads_getD coord field 0 (i + r) (by omega) (by omega)] at he
    have hcnd := hlast (i + r + 1) (by omega) (by omega)
    have e3 : i + r + 1 - 1 = i + r := by omega
    rw [e3] at hcnd
    rw [← he]
    simpa using hcnd
  rw [colScan, hsplit, colSteps, List.foldl_append, List.foldl_cons]
  have hkeep := colSteps_bracket_keep lev (((pairs coord).zip (pairs field)).drop i)
    (colStep lev (((pairs coord).zip (pairs field)).getD (i - 1) ((0, 0), (0, 0)))
      (List.foldl (fun c q => colStep lev q c) colInit
        (((pairs coord).zip (pairs field)).take (i - 1)))) hdrop
  rw [colSteps] at hkeep
  refine ⟨hkeep.1.trans ?_, hkeep.2.1.trans ?_, hkeep.2.2.1.trans ?_,
    hkeep.2.2.2.trans ?_⟩
  all_goals (rw [hq]; simp only [colStep]; rw [if_pos hcond])

/-- If source index `i` (with `1 ≤ i < nsource`) is an exact coordinate
match and no later index is, the scan records `Ieq = field[i]`: last exact
match wins. -/
theorem colScan_Ieq_last [LinearOrderedField α] (lev : α) (coord field : List α)
    (hlen : coord.length = field.length) (i : Nat) (h1 : 1 ≤ i) (hi : i < coord.length)
    (heq : coord.getD i 0 = lev)
    (hlast : ∀ k, i < k → k < coord.length → coord.getD k 0 ≠ lev) :
    (colScan lev coord field).Ieq = some (field.getD i 0) := by
  have hQl : ((pairs coord).zip (pairs field)).length = coord.length - 1 := by
    rw [List.length_zip, length_pairs, length_pairs, hlen, min_self]
  have hkQ : i - 1 < ((pairs coord).zip (pairs field)).length := by omega
  have hsplit : (pairs coord).zip (pairs field) =
      ((pairs coord).zip (pairs field)).take (i - 1) ++
        ((pairs coord).zip (pairs field)).getD (i - 1) ((0, 0), (0, 0)) ::
          ((pairs coord).zip (pairs field)).drop i := by
    rw [List.getD_eq_getElem _ _ hkQ]
    have e1 := List.take_append_drop (i - 1) ((pairs coord).zip (pairs field))
    rw [List.drop_eq_getElem_cons hkQ] at e1
    have e2 : i - 1 + 1 = i := by omega
    rw [e2] at e1
    exact e1.symm
  have hq : ((pairs coord).zip (pairs field)).getD (i - 1) ((0, 0), (0, 0)) =
      ((coord.getD (i - 1) 0, coord.getD i 0), (field.getD (i - 1) 0, field.getD i 0)) := by
    have e := quads_getD coord field 0 (i - 1) (by omega) (by omega)
    have e2 : i - 1 + 1 = i := by omega
    rw [e2] at e
    exact e
  have hdrop : ∀ q ∈ ((pairs coord).zip (pairs field)).drop i, q.1.2 ≠ lev := by
    intro q hqmem
    obtain ⟨r, hr, he⟩ := List.mem_iff_getElem.mp hqmem
    rw [List.getElem_drop] at he
    have hiQ : i + r < ((pairs coord).zip (pairs field)).length := by
      simp only [List.length_drop] at hr
      omega
    rw [← List.getD_eq_getElem _ ((0, 0), (0, 0)) hiQ,
      quads_getD coord field 0 (i + r) (by omega) (by omega)] at he
    have hcnd := hlast (i + r + 1) (by omega) (by omega)
    rw [← he]
    simpa using hcnd
  rw [colScan, hsplit, colSteps, List.foldl_append, List.foldl_cons]
  have hkeep := colSteps_Ieq_keep lev (((pairs coord).zip (pairs field)).drop i)
    (colStep lev (((pairs coord).zip (pairs field)).getD (i - 1) ((0, 0), (0, 0)))
      (List.foldl (fun c q => colStep lev q c) colInit
        (((pairs coord).zip (pairs field)).take (i - 1)))) hdrop
  rw [colSteps] at hkeep
  refine hkeep.trans ?_
  rw [hq]
  simp only [colStep]
  rw [if_pos heq]

/-- If no source index `1 ≤ k < nsource` satisfies the bracket condition,
the bracket arrays keep the sentinel `-1`. -/
theorem colScan_bracket_sentinel [LinearOrderedField α] (lev : α) (coord field : List α)
    (h : ∀ k, 1 ≤ k → k < coord.length →
      ¬(coord.getD (k - 1) 0 ≤ lev ∧ lev ≤ coord.getD k 0)) :
    (colScan lev coord field).Iabv = -1 ∧ (colScan lev coord field).Ibel = -1 ∧
      (colScan lev coord field).Aabv = -1 ∧ (colScan lev coord field).Abel = -1 := by
  have hall : ∀ q ∈ (pairs coord).zip (pairs field), ¬(q.1.1 ≤ lev ∧ lev ≤ q.1.2) := by
    intro q hqmem
    obtain ⟨k, hk1, hk2, he⟩ := quads_mem coord field 0 q hqmem
    have hcnd := h (k + 1) (by omega) (by omega)
    simp only [Nat.add_sub_cancel] at hcnd
    rw [he]
    exact hcnd
  exact colSteps_bracket_keep lev _ colInit hall

/-- If no source index `1 ≤ k < nsource` is an exact coordinate match,
`Ieq` keeps its initial fully-masked value. -/
theorem colScan_Ieq_nomatch [LinearOrderedField α] (lev : α) (coord field : List α)
    (h : ∀ k, 1 ≤ k → k < coord.length → coord.getD k 0 ≠ lev) :
    (colScan lev coord field).Ieq = none := by
  have hall : ∀ q ∈ (pairs coord).zip (pairs field), q.1.2 ≠ lev := by
    intro q hqmem
    obtain ⟨k, hk1, hk2, he⟩ := quads_mem coord field 0 q hqmem
    have hcnd := h (k + 1) (by omega) (by omega)
    rw [he]
    exact hcnd
  exact colSteps_Ieq_keep lev _ colInit hall

/-! ## Claims -/

/-- C7: a scalar (non-sequence) `targetLevels` argument is normalized to a
one-element sequence and both entry points proceed exactly as on the
corresponding length-1 level list; no error arises from this input shape. -/
theorem C7_scalar_levels [LinearOrderedField α] (log : α → α) (A Idx : List (List α))
    (x : α) :
    normalizeLevels (Sum.inl x) = [x] ∧
      linearInterpolation A Idx (Sum.inl x) = linearInterpolation A Idx (Sum.inr [x]) ∧
      logLinearInterpolation log A Idx (Sum.inl x) =
        logLinearInterpolation log A Idx (Sum.inr [x]) :=
  ⟨rfl, rfl, rfl⟩

/-- C5 counterexample: the claim says the snapshotted auto-bounds value is
restored on every exit path, including a raising `createAxis`.  With the
setting initially `true` and a `createAxis` that raises, the call ends with
the setting still `false` (disabled), not restored to `true`:
lines 145-148 have no try/finally. -/
theorem C5_counterexample :
    (buildLevelAxis (fun _ => Except.error ()) true).2 ≠ true := by decide

/-- C5 amended: both entry points snapshot the auto-bounds setting and
disable it while constructing the new vertical axis (`createAxis` runs with
the setting `false`); the snapshot is restored immediately after a
successful `createAxis` (so failures of any later step leave it restored),
but when `createAxis` itself raises the setting stays disabled. -/
theorem C5_amended (create : Bool → Except Unit Unit) (b0 : Bool) :
    buildLevelAxis create b0 =
      (create false,
        match create false with
        | Except.ok _ => b0
        | Except.error _ => false) := by
  rw [buildLevelAxis]
  cases h : create false <;> simp [h]

/-- C1 counterexample: the claim says that whenever `Coordinate[i] == lev`
for SOME source index `i`, the output cell equals `Field[i]` via the `Ieq`
override.  On the single-column input with one source level,
`Coordinate[0] = 2 = lev` and `Field[0] = 5`, yet both interpolations
return a masked cell, because the scan (and hence the `Ieq` update of line
129) starts at source index 1 and never tests `Idx[0]`. -/
theorem C1_counterexample :
    linearInterpolation (α := ℚ) [[5]] [[2]] (Sum.inl 2) = some [[none]] ∧
      logLinearInterpolation (α := ℚ) (fun x => x) [[5]] [[2]] (Sum.inl 2) =
        some [[none]] := by
  constructor <;> decide

/-- C1 amended: if `Coordinate[i] == lev` for some source index `i ≥ 1`
(the scan starts at index 1), the per-column output cell equals the field
value at the last such index, for the linear kernel and for the log-linear
kernel with ANY logarithm function — the value comes from the `Ieq`
override, not from either interpolation formula. -/
theorem C1_amended [LinearOrderedField α] (log : α → α) (lev : α) (coord field : List α)
    (hlen : coord.length = field.length) (i : Nat) (h1 : 1 ≤ i) (hi : i < coord.length)
    (heq : coord.getD i 0 = lev)
    (hlast : ∀ k, i < k → k < coord.length → coord.getD k 0 ≠ lev) :
    linColLevel lev coord field = some (field.getD i 0) ∧
      logColLevel log lev coord field = some (field.getD i 0) ∧
      (colScan lev coord field).Ieq = some (field.getD i 0) := by
  have hIeq := colScan_Ieq_last lev coord field hlen i h1 hi heq hlast
  refine ⟨?_, ?_, hIeq⟩
  · rw [linColLevel, hIeq]
    rfl
  · rw [logColLevel, hIeq]
    rfl

/-- C1 amended, witness: the column `coord = [1, 2]`, `field = [3, 4]` at
target level `2` has its exact match at source index 1 and yields `4` from
the `Ieq` override under both kernels. -/
theorem C1_amended_witness :
    linColLevel (2 : ℚ) [1, 2] [3, 4] = some 4 ∧
      logColLevel (fun x => x) (2 : ℚ) [1, 2] [3, 4] = some 4 ∧
      (colScan (2 : ℚ) [1, 2] [3, 4]).Ieq = some 4 :=
  C1_amended (fun x => x) 2 [1, 2] [3, 4] (by decide) 1 (by decide) (by decide)
    (by decide) (fun k hk1 hk2 => absurd hk2 (by simp only [List.length_cons, List.length_nil]; omega))

/-- C9: the no-bracket test of lines 131-132 / 246-247 compares `Ibel`
against the numeric sentinel `-1`, so a column whose genuine bracket has
below-coordinate exactly `-1` (and no exact match) is reported missing by
both kernels even though a valid bracket was recorded. -/
theorem C9_sentinel_collision [LinearOrderedField α] (log : α → α) (lev : α)
    (coord field : List α) (hlen : coord.length = field.length) (i : Nat)
    (h1 : 1 ≤ i) (hi : i < coord.length)
    (hcond : coord.getD (i - 1) 0 ≤ lev ∧ lev ≤ coord.getD i 0)
    (hsent : coord.getD (i - 1) 0 = -1)
    (hlast : ∀ k, i < k → k < coord.length →
      ¬(coord.getD (k - 1) 0 ≤ lev ∧ lev ≤ coord.getD k 0))
    (hnoeq : ∀ k, 1 ≤ k → k < coord.length → coord.getD k 0 ≠ lev) :
    (colScan lev coord field).Iabv = coord.getD i 0 ∧
      (colScan lev coord field).Ibel = -1 ∧
      linColLevel lev coord field = none ∧
      logColLevel log lev coord field = none := by
  obtain ⟨hIabv, hIbel, hAabv, hAbel⟩ :=
    colScan_bracket_last lev coord field hlen i h1 hi hcond hlast
  have hIeq := colScan_Ieq_nomatch lev coord field hnoeq
  rw [hsent] at hIbel
  refine ⟨hIabv, hIbel, ?_, ?_⟩
  · rw [linColLevel, hIeq, hIbel]
    simp [overrideCell, maLinCell]
  · rw [logColLevel, hIeq, hIbel]
    simp [overrideCell, maLogCell]

/-- C9 witness: the column `coord = [-1, 1]`, `field = [10, 20]` at target
level `0` has the genuine bracket `(Iabv, Ibel) = (1, -1)` at source index
1, yet both kernels return a masked cell. -/
theorem C9_sentinel_collision_witness :
    (colScan (0 : ℚ) [-1, 1] [10, 20]).Iabv = 1 ∧
      (colScan (0 : ℚ) [-1, 1] [10, 20]).Ibel = -1 ∧
      linColLevel (0 : ℚ) [-1, 1] [10, 20] = none ∧
      logColLevel (fun x => x) (0 : ℚ) [-1, 1] [10, 20] = none :=
  C9_sentinel_collision (fun x => x) 0 [-1, 1] [10, 20] (by decide) 1 (by decide)
    (by decide) (by decide) (by decide)
    (fun k hk1 hk2 => absurd hk2 (by simp only [List.length_cons, List.length_nil]; omega))
    (fun k hk1 hk2 => by
      simp only [List.length_cons, List.length_nil] at hk2
      have hk : k = 1 := by omega
      subst hk
      decide)

/-- C4: the scan records, per column, `Iabv = Coordinate[i]`,
`Ibel = Coordinate[i-1]`, `Aabv = Field[i]`, `Abel = Field[i-1]` wherever
`Coordinate[i] >= lev` and `Coordinate[i-1] <= lev`; when several indices
match, the last matching index in scan order determines the recorded
bracket, and likewise the last exact-equality match determines `Ieq`. -/
theorem C4_bracket_last_match [LinearOrderedField α] (lev : α) (coord field : List α)
    (hlen : coord.length = field.length) :
    (∀ i, 1 ≤ i → i < coord.length →
      (coord.getD (i - 1) 0 ≤ lev ∧ lev ≤ coord.getD i 0) →
      (∀ k, i < k → k < coord.length →
        ¬(coord.getD (k - 1) 0 ≤ lev ∧ lev ≤ coord.getD k 0)) →
      (colScan lev coord field).Iabv = coord.getD i 0 ∧
        (colScan lev coord field).Ibel = coord.getD (i - 1) 0 ∧
        (colScan lev coord field).Aabv = field.getD i 0 ∧
        (colScan lev coord field).Abel = field.getD (i - 1) 0) ∧
      (∀ i, 1 ≤ i → i < coord.length → coord.getD i 0 = lev →
        (∀ k, i < k → k < coord.length → coord.getD k 0 ≠ lev) →
        (colScan lev coord field).Ieq = some (field.getD i 0)) :=
  ⟨fun i h1 hi hcond hlast => colScan_bracket_last lev coord field hlen i h1 hi hcond hlast,
   fun i h1 hi heq hlast => colScan_Ieq_last lev coord field hlen i h1 hi heq hlast⟩

/-- C4 witness: on the non-monotonic column `coord = [0, 10, 0, 10]`,
`field = [1, 2, 3, 4]`, target level `5` is bracketed at source indices 1
and 3, and the recorded bracket is that of the last match `i = 3`; target
level `10` matches exactly at source indices 1 and 3, and `Ieq` records the
field value of the last match. -/
theorem C4_bracket_last_match_witness :
    (colScan (5 : ℚ) [0, 10, 0, 10] [1, 2, 3, 4]).Iabv = 10 ∧
      (colScan (5 : ℚ) [0, 10, 0, 10] [1, 2, 3, 4]).Ibel = 0 ∧
      (colScan (5 : ℚ) [0, 10, 0, 10] [1, 2, 3, 4]).Aabv = 4 ∧
      (colScan (5 : ℚ) [0, 10, 0, 10] [1, 2, 3, 4]).Abel = 3 ∧
      (colScan (10 : ℚ) [0, 10, 0, 10] [1, 2, 3, 4]).Ieq = some 4 := by
  have h5 := (C4_bracket_last_match (5 : ℚ) [0, 10, 0, 10] [1, 2, 3, 4] (by decide)).1
    3 (by decide) (by decide) (by decide) (fun k hk1 hk2 => absurd hk2 (by simp only [List.length_cons, List.length_nil]; omega))
  have h10 := (C4_bracket_last_match (10 : ℚ) [0, 10, 0, 10] [1, 2, 3, 4] (by decide)).2
    3 (by decide) (by decide) (by decide) (fun k hk1 hk2 => absurd hk2 (by simp only [List.length_cons, List.length_nil]; omega))
  exact ⟨h5.1, h5.2.1, h5.2.2.1, h5.2.2.2, h10⟩

/-- C2: on the single-column input with source coordinates
`[20000, 50000, 100000]` (top to bottom) and field `[1, 2, 3]`, the single
target level `75000` yields exactly `5/2` under `linearInterpolation` and
`log 1.5 / log 2 * (3 - 2) + 2` under `logLinearInterpolation`, via the
bracket `Iabv = 100000`, `Ibel = 50000`, `Aabv = 3`, `Abel = 2`. -/
theorem C2_worked_scenario :
    linearInterpolation (α := ℝ) [[1], [2], [3]] [[20000], [50000], [100000]]
        (Sum.inl 75000) = some [[some (5 / 2)]] ∧
      logLinearInterpolation Real.log [[1], [2], [3]] [[20000], [50000], [100000]]
        (Sum.inl 75000) = some [[some (Real.log 1.5 / Real.log 2 * (3 - 2) + 2)]] ∧
      colScan (75000 : ℝ) [20000, 50000, 100000] [1, 2, 3] =
        ⟨100000, 50000, 3, 2, none⟩ := by
  have hI : ∀ r ∈ ([[20000], [50000], [100000]] : List (List ℝ)), r.length = 1 := by
    intro r hr
    simp only [List.mem_cons, List.not_mem_nil, or_false] at hr
    rcases hr with rfl | rfl | rfl <;> rfl
  have hA : ∀ r ∈ ([[1], [2], [3]] : List (List ℝ)), r.length = 1 := by
    intro r hr
    simp only [List.mem_cons, List.not_mem_nil, or_false] at hr
    rcases hr with rfl | rfl | rfl <;> rfl
  have hcolI : column (α := ℝ) 0 [[20000], [50000], [100000]] = [20000, 50000, 100000] := by
    simp [column]
  have hcolA : column (α := ℝ) 0 [[1], [2], [3]] = [1, 2, 3] := by
    simp [column]
  have hrange : List.range 1 = [0] := rfl
  have hlinc : linColLevel (75000 : ℝ) [20000, 50000, 100000] [1, 2, 3] = some (5 / 2) := by
    norm_num [linColLevel, colScan, pairs, colSteps, colStep, colInit, maLinCell,
      overrideCell, List.zip]
  have hlogc : logColLevel Real.log (75000 : ℝ) [20000, 50000, 100000] [1, 2, 3]
      = some (Real.log 1.5 / Real.log 2 * (3 - 2) + 2) := by
    have hl2 : Real.log 2 ≠ 0 := ne_of_gt (Real.log_pos (by norm_num))
    norm_num [logColLevel, colScan, pairs, colSteps, colStep, colInit, maLogCell,
      overrideCell, List.zip, hl2]
  have hlin := linLevelSlice_eq_columns (75000 : ℝ) [[20000], [50000], [100000]]
    [[1], [2], [3]] 1 hI hA rfl (by simp)
  have hlog := logLevelSlice_eq_columns Real.log (75000 : ℝ) [[20000], [50000], [100000]]
    [[1], [2], [3]] 1 hI hA rfl (by simp)
  rw [hrange] at hlin hlog
  simp only [List.map_cons, List.map_nil, hcolI, hcolA, hlinc, hlogc] at hlin hlog
  refine ⟨?_, ?_, ?_⟩
  · rw [linearInterpolation]
    have hnorm : normalizeLevels (Sum.inl (75000 : ℝ)) = [75000] := rfl
    rw [hnorm]
    simp [levelLoop, hlin]
  · rw [logLinearInterpolation]
    have hnorm : normalizeLevels (Sum.inl (75000 : ℝ)) = [75000] := rfl
    rw [hnorm]
    simp [levelLoop, hlog]
  · norm_num [colScan, pairs, colSteps, colStep, colInit, List.zip]

/-- A column cell whose target level lies strictly outside the column's
coordinate range is masked by both kernels: no scan step fires, `Ibel`
keeps the sentinel, `val` is masked, no formula value survives. -/
theorem colLevel_none_of_out_of_range [LinearOrderedField α] (log : α → α) (lev : α)
    (coordL fieldL : List α)
    (hout : (∀ x ∈ coordL, lev < x) ∨ (∀ x ∈ coordL, x < lev)) :
    linColLevel lev coordL fieldL = none ∧ logColLevel log lev coordL fieldL = none := by
  have hnob : ∀ k, 1 ≤ k → k < coordL.length →
      ¬(coordL.getD (k - 1) 0 ≤ lev ∧ lev ≤ coordL.getD k 0) := by
    intro k hk1 hk2 hc
    have hmem1 : coordL.getD (k - 1) 0 ∈ coordL := by
      rw [List.getD_eq_getElem _ _ (by omega)]
      exact List.getElem_mem _
    have hmem2 : coordL.getD k 0 ∈ coordL := by
      rw [List.getD_eq_getElem _ _ (by omega)]
      exact List.getElem_mem _
    rcases hout with hlt | hgt
    · exact absurd hc.1 (not_le.mpr (hlt _ hmem1))
    · exact absurd hc.2 (not_le.mpr (hgt _ hmem2))
  have hnoeq : ∀ k, 1 ≤ k → k < coordL.length → coordL.getD k 0 ≠ lev := by
    intro k hk1 hk2
    have hmem : coordL.getD k 0 ∈ coordL := by
      rw [List.getD_eq_getElem _ _ (by omega)]
      exact List.getElem_mem _
    rcases hout with hlt | hgt
    · exact ne_of_gt (hlt _ hmem)
    · exact ne_of_lt (hgt _ hmem)
  obtain ⟨hIabv, hIbel, hAabv, hAbel⟩ := colScan_bracket_sentinel lev coordL fieldL hnob
  have hIeq := colScan_Ieq_nomatch lev coordL fieldL hnoeq
  constructor
  · rw [linColLevel, hIeq, hIbel]
    simp [overrideCell, maLinCell]
  · rw [logColLevel, hIeq, hIbel]
    simp [overrideCell, maLogCell]

/-- C3: for every well-shaped call, every target level position `k` and
every column `j`: if that level lies strictly outside that column's
coordinate range, both kernels return normally (`some`, never a raised
failure) and the output cell for that column and level is masked — even
when other cells of the same call are in range and get interpolated
values.  No numeric value from the interpolation arithmetic reaches the
out-of-range cell. -/
theorem C3_out_of_range [LinearOrderedField α] (log : α → α) (A Idx : List (List α))
    (levels : List α) (m : Nat) (hI : ∀ r ∈ Idx, r.length = m)
    (hA : ∀ r ∈ A, r.length = m) (hlen : A.length = Idx.length) (hne : Idx ≠ [])
    (k j : Nat) (hk : k < levels.length) (hj : j < m)
    (hout : (∀ x ∈ column j Idx, levels.getD k 0 < x) ∨
      (∀ x ∈ column j Idx, x < levels.getD k 0)) :
    ∃ tlin tlog : List (List (Option α)),
      linearInterpolation A Idx (Sum.inr levels) = some tlin ∧
        logLinearInterpolation log A Idx (Sum.inr levels) = some tlog ∧
        (tlin.getD k []).getD j (some 0) = none ∧
        (tlog.getD k []).getD j (some 0) = none := by
  have hlinslice : ∀ lev ∈ levels, linLevelSlice lev Idx A =
      some ((List.range m).map (fun j2 => linColLevel lev (column j2 Idx) (column j2 A))) :=
    fun lev _ => linLevelSlice_eq_columns lev Idx A m hI hA hlen hne
  have hlogslice : ∀ lev ∈ levels, logLevelSlice log lev Idx A =
      some ((List.range m).map
        (fun j2 => logColLevel log lev (column j2 Idx) (column j2 A))) :=
    fun lev _ => logLevelSlice_eq_columns log lev Idx A m hI hA hlen hne
  have hrj : (List.range m).getD j 0 = j := by
    rw [List.getD_eq_getElem _ _ (by rw [List.length_range]; exact hj),
      List.getElem_range]
  refine ⟨levels.map (fun lev => (List.range m).map
      (fun j2 => linColLevel lev (column j2 Idx) (column j2 A))),
    levels.map (fun lev => (List.range m).map
      (fun j2 => logColLevel log lev (column j2 Idx) (column j2 A))), ?_, ?_, ?_, ?_⟩
  · rw [linearInterpolation]
    exact levelLoop_eq_map levels hlinslice
  · rw [logLinearInterpolation]
    exact levelLoop_eq_map levels hlogslice
  · rw [getD_map_lt _ levels k 0 [] hk,
      getD_map_lt _ (List.range m) j 0 (some 0) (by rw [List.length_range]; exact hj),
      hrj]
    exact (colLevel_none_of_out_of_range log (levels.getD k 0)
      (column j Idx) (column j A) hout).1
  · rw [getD_map_lt _ levels k 0 [] hk,
      getD_map_lt _ (List.range m) j 0 (some 0) (by rw [List.length_range]; exact hj),
      hrj]
    exact (colLevel_none_of_out_of_range log (levels.getD k 0)
      (column j Idx) (column j A) hout).2

/-- C3 witness: a mixed call — the column `[10, 20]` with field `[1, 2]`
and target levels `[15, 25]`, where level `15` is in range (its cell gets a
bracket) while level `25` is above the range: the call returns normally and
the cell for level `25` is masked. -/
theorem C3_out_of_range_witness :
    ∃ tlin tlog : List (List (Option ℚ)),
      linearInterpolation (α := ℚ) [[1], [2]] [[10], [20]] (Sum.inr [15, 25]) =
          some tlin ∧
        logLinearInterpolation (α := ℚ) (fun x => x) [[1], [2]] [[10], [20]]
          (Sum.inr [15, 25]) = some tlog ∧
        (tlin.getD 1 []).getD 0 (some 0) = none ∧
        (tlog.getD 1 []).getD 0 (some 0) = none :=
  C3_out_of_range (fun x => x) [[1], [2]] [[10], [20]] [15, 25] 1 (by decide) (by decide)
    (by decide) (by decide) 1 0 (by decide) (by decide) (by decide)

/-- C8 counterexample: the round-trip claim fails as stated.  On a
single-level column (`coord = [3]`, `field = [7]`), target levels equal to
the coordinates yield a masked cell, not `7` — the exact match at index 0
is never seen by the scan.  And on `coord = [1, 2]`, `field = [3, 4]`, the
value at target level `1` is reproduced (`3`) while `Ieq` is masked: it
comes from the interpolation formula, not from the exact-match path. -/
theorem C8_roundtrip_counterexample :
    linearInterpolation (α := ℚ) [[7]] [[3]] (Sum.inr [3]) = some [[none]] ∧
      (colScan (1 : ℚ) [1, 2] [3, 4]).Ieq = none ∧
      linColLevel (1 : ℚ) [1, 2] [3, 4] = some 3 := by
  refine ⟨by decide, by decide, ?_⟩
  norm_num [linColLevel, colScan, pairs, colSteps, colStep, colInit, maLinCell,
    overrideCell, List.zip]

/-- C8 amended: on a strictly increasing, positive coordinate column with at
least two levels, interpolating to the column's own coordinate values
reproduces the field values exactly under both kernels; at indices `k ≥ 1`
the value comes from the exact-match override (`Ieq` holds it), while at
index 0 `Ieq` is masked and the value comes from the bracket formula
degenerating to `Abel`.  (`log` is any function with `log 1 = 0` and
`log x ≠ 0` for `x > 1`, as the real logarithm is.) -/
theorem C8_roundtrip_amended [LinearOrderedField α] (log : α → α) (coord field : List α)
    (hlen : coord.length = field.length) (hn : 2 ≤ coord.length)
    (hmono : List.Pairwise (· < ·) coord) (hpos : ∀ x ∈ coord, 0 < x)
    (hlog1 : log 1 = 0) (hlogne : ∀ x : α, 1 < x → log x ≠ 0) :
    ∀ k, k < coord.length →
      (linColLevel (coord.getD k 0) coord field = some (field.getD k 0) ∧
        logColLevel log (coord.getD k 0) coord field = some (field.getD k 0)) ∧
        (1 ≤ k → (colScan (coord.getD k 0) coord field).Ieq = some (field.getD k 0)) ∧
        (k = 0 → (colScan (coord.getD k 0) coord field).Ieq = none) := by
  have hlt : ∀ a b, a < b → b < coord.length → coord.getD a 0 < coord.getD b 0 := by
    intro a b hab hb
    have hp := List.pairwise_iff_getElem.mp hmono a b (by omega) hb hab
    rw [List.getD_eq_getElem _ _ (by omega), List.getD_eq_getElem _ _ hb]
    exact hp
  have hposD : ∀ a, a < coord.length → 0 < coord.getD a 0 := by
    intro a ha
    apply hpos
    rw [List.getD_eq_getElem _ _ ha]
    exact List.getElem_mem _
  intro k hk
  rcases Nat.eq_zero_or_pos k with hk0 | hk1
  · subst hk0
    have hIeqN : (colScan (coord.getD 0 0) coord field).Ieq = none := by
      apply colScan_Ieq_nomatch
      intro k2 h1 h2
      exact ne_of_gt (hlt 0 k2 (by omega) h2)
    have hc1c0 : coord.getD 0 0 < coord.getD 1 0 := hlt 0 1 (by omega) (by omega)
    obtain ⟨hIabv, hIbel, hAabv, hAbel⟩ :=
      colScan_bracket_last (coord.getD 0 0) coord field hlen 1 (by omega) (by omega)
        ⟨le_refl _, le_of_lt hc1c0⟩
        (fun k2 hk2a hk2b hc =>
          absurd hc.1 (not_le.mpr (hlt 0 (k2 - 1) (by omega) (by omega))))
    have hc0pos := hposD 0 (by omega)
    have hc1pos := hposD 1 (by omega)
    have hne1 : coord.getD 0 0 ≠ -1 :=
      ne_of_gt (lt_trans (by norm_num : (-1 : α) < 0) hc0pos)
    refine ⟨⟨?_, ?_⟩, fun h => absurd h (by omega), fun _ => hIeqN⟩
    · rw [linColLevel, hIeqN, hIbel, hIabv, hAabv, hAbel]
      simp only [overrideCell]
      rw [maLinCell, if_neg hne1, if_neg (sub_ne_zero.mpr (ne_of_gt hc1c0)),
        sub_self, zero_div, zero_mul, zero_add]
    · rw [logColLevel, hIeqN, hIbel, hIabv, hAabv, hAbel]
      simp only [overrideCell]
      have hdiv : coord.getD 0 0 / coord.getD 0 0 = 1 := div_self (ne_of_gt hc0pos)
      rw [maLogCell, if_neg hne1, if_neg (ne_of_gt hc0pos), hdiv,
        if_neg (by norm_num : ¬(1 : α) ≤ 0),
        if_neg (not_le.mpr (div_pos hc1pos hc0pos)),
        if_neg (hlogne _ ((one_lt_div hc0pos).mpr hc1c0)),
        hlog1, zero_div, zero_mul, zero_add]
  · have hIeq := colScan_Ieq_last (coord.getD k 0) coord field hlen k hk1 hk rfl
      (fun k2 h1 h2 => ne_of_gt (hlt k k2 h1 h2))
    refine ⟨⟨?_, ?_⟩, fun _ => hIeq, fun h0 => absurd h0 (by omega)⟩
    · rw [linColLevel, hIeq]
      rfl
    · rw [logColLevel, hIeq]
      rfl

/-- C8 amended, witness: the strictly increasing positive column
`coord = [1, 2, 4]`, `field = [10, 20, 30]` reproduces `10` at its own
level `1` (index 0, bracket-formula path) and `20` at its own level `2`
(index 1, exact-match path, `Ieq` holding the value). -/
theorem C8_roundtrip_amended_witness :
    linColLevel (1 : ℚ) [1, 2, 4] [10, 20, 30] = some 10 ∧
      logColLevel (fun x => if 1 < x then 1 else 0) (2 : ℚ) [1, 2, 4] [10, 20, 30] =
        some 20 ∧
      (colScan (2 : ℚ) [1, 2, 4] [10, 20, 30]).Ieq = some 20 := by
  have H := C8_roundtrip_amended (α := ℚ) (fun x => if 1 < x then 1 else 0)
    [1, 2, 4] [10, 20, 30] (by decide) (by decide) (by decide) (by decide) (by decide)
    (fun x hx => by simp only [if_pos hx]; exact one_ne_zero)
  exact ⟨((H 0 (by decide)).1).1, ((H 1 (by decide)).1).2, (H 1 (by decide)).2.1 (by decide)⟩

end CdutilVertical

